import Mathlib

/-!
# FoodScanner data scripts: formal model

Shallow embedding of the two JSONL batch scripts of the repository:

* `Scripts/dedupe_jsonl_by_code.py` — streams a JSONL file, keeps the first
  record for each string-valued "code" field, drops later duplicates, and
  prints a total/kept/dropped summary.
* `Scripts/extract_minimal_dataset.py` — streams an Open Food Facts JSONL
  dump and emits, for each record with a usable code, score and name, a
  minimal three-field record.

JSON numbers are modelled exactly: integers as `Int` and floating-point
literals as rationals (`ℚ`).  This matches standard JSON, where every
numeric literal denotes a finite decimal; the model therefore has no
infinities or NaNs.  Python-level detail that the embedding preserves:
`bool` is a subclass of `int` in Python, so `isinstance(x, (int, float))`
accepts booleans (with `float(True) = 1.0`, `float(False) = 0.0`); the
model's `pyNum?` does the same.

A line of an input file is modelled after what the scripts can observe of
it: it is blank after stripping (skipped before parsing), it fails
`json.loads` (the `JSONDecodeError` handler skips it), or it parses to a
JSON object, carried as the resulting dict — an association list with the
key ordering of the dict, looked up by `JObj.get` (Python `dict.get`).
A line holding valid JSON that is not an object would crash both scripts
with an uncaught `AttributeError` on `.get`; the documented file format
("each non-empty line is an independently parseable JSON object") excludes
that case, and so does the model.
-/

/-- A parsed JSON value, as produced by Python's `json.loads`: null,
booleans, numbers (Python `int` or `float`, the latter modelled as an
exact rational), strings, arrays and objects. -/
inductive JVal where
  | jnull : JVal
  | jbool (b : Bool) : JVal
  | jint (n : Int) : JVal
  | jfloat (q : ℚ) : JVal
  | jstr (s : String) : JVal
  | jarr (elems : List JVal) : JVal
  | jobj (fields : List (String × JVal)) : JVal

/-- A parsed JSON object (a Python dict from `json.loads`): an association
list of field name and value. -/
abbrev JObj := List (String × JVal)

/-- Python `dict.get`: looks a key up in an object, `none` when absent.
Dicts have unique keys, so the first match is the only match. -/
def JObj.get : JObj → String → Option JVal
  | [], _ => none
  | (k, v) :: fs, key => if k == key then some v else JObj.get fs key

/-- One line of an input file, as the scripts observe it: blank after
stripping, rejected by `json.loads`, or parsed to a JSON object. -/
inductive Line where
  | blank : Line
  | malformed : Line
  | obj (fields : JObj) : Line

/-- Python's `isinstance(x, (int, float))` followed by `float(x)`:
`some` of the numeric value as a rational when the check passes, `none`
otherwise.  Booleans pass because Python's `bool` subclasses `int`. -/
def pyNum? : JVal → Option ℚ
  | .jint n => some (n : ℚ)
  | .jfloat q => some q
  | .jbool b => some (if b then 1 else 0)
  | _ => none

/-- Python's `str.strip()`, on the character list of a string: drop
whitespace from the front, then from the back. -/
def pyStripL (cs : List Char) : List Char :=
  ((cs.dropWhile Char.isWhitespace).reverse.dropWhile Char.isWhitespace).reverse

/-- Python's `str.strip()` on strings. -/
def pyStrip (s : String) : String :=
  String.mk (pyStripL s.data)

/-- The check `isinstance(value, str) and value.strip()` followed by
`return value.strip()`: the stripped string when `value` is a string that
is non-empty after stripping, `none` otherwise. -/
def strippedStr? : JVal → Option String
  | .jstr s => if pyStrip s = "" then none else some (pyStrip s)
  | _ => none

/-! ## Extractor: `Scripts/extract_minimal_dataset.py` -/

/-- The four-name priority list the extractor's `choose_name` loops over
before falling back to `brands`. -/
def nameKeys : List String :=
  ["product_name", "product_name_en", "generic_name", "generic_name_en"]

/-- `choose_name(product)`: first key of `nameKeys` whose value is a string
that is non-empty after stripping, returned stripped; else `brands` under
the same check; else `none`. -/
def choose_name (product : JObj) : Option String :=
  match nameKeys.findSome? (fun k => (product.get k).bind strippedStr?) with
  | some s => some s
  | none => (product.get "brands").bind strippedStr?

/-- `choose_score(product)`: return `float(nutriscore_score)` when that
field holds a number; else, when `nutriscore_data` is a dict whose
`score` holds a number, return it as a float; else fall back to
`nutrition_score_fr_100g`; else `none`. -/
def choose_score (product : JObj) : Option ℚ :=
  match (product.get "nutriscore_score").bind pyNum? with
  | some q => some q
  | none =>
    match (match product.get "nutriscore_data" with
           | some (.jobj fs) => (JObj.get fs "score").bind pyNum?
           | _ => none) with
    | some q => some q
    | none => (product.get "nutrition_score_fr_100g").bind pyNum?

/-- The body of the extractor's per-line loop: skip blank and malformed
lines; skip records whose `code` is not a string or strips to empty; skip
records without a usable score or name; otherwise build the minimal
three-field entry with the stripped code. -/
def extractLine : Line → Option JObj
  | .blank => none
  | .malformed => none
  | .obj product =>
    match product.get "code" with
    | some (.jstr code) =>
      if pyStrip code = "" then none
      else
        match choose_score product, choose_name product with
        | some score, some name =>
          some [("code", .jstr (pyStrip code)),
                ("score", .jfloat score),
                ("name", .jstr name)]
        | _, _ => none
    | _ => none

/-- The extractor's `main` loop over the input lines: the emitted entries
in order, the `total` counter (incremented for every line) and the
`written` counter (incremented for every emitted entry). -/
def extractRun : List Line → List JObj × Nat × Nat
  | [] => ([], 0, 0)
  | l :: ls =>
    let r := extractRun ls
    match extractLine l with
    | some entry => (entry :: r.1, r.2.1 + 1, r.2.2 + 1)
    | none => (r.1, r.2.1 + 1, r.2.2)

/-! ## Deduplicator: `Scripts/dedupe_jsonl_by_code.py` -/

/-- The body of the deduplicator's per-line loop, given the current seen
set (modelled as the list of codes added so far): skip blank and malformed
lines; skip records whose `code` is absent or not a string; skip records
whose code was already seen; otherwise write the parsed object unchanged
and add its code to the seen set. -/
def dedupeLine (seen : List String) : Line → Option JObj × List String
  | .blank => (none, seen)
  | .malformed => (none, seen)
  | .obj data =>
    match data.get "code" with
    | some (.jstr code) =>
      if seen.contains code then (none, seen)
      else (some data, code :: seen)
    | _ => (none, seen)

/-- The deduplicator's `main` loop from a given seen set: the written
objects in order, the final seen set, the `total` counter and the `kept`
counter. -/
def dedupeRun : List Line → List String → List JObj × List String × Nat × Nat
  | [], seen => ([], seen, 0, 0)
  | l :: ls, seen =>
    match dedupeLine seen l with
    | (some data, seen') =>
      let r := dedupeRun ls seen'
      (data :: r.1, r.2.1, r.2.2.1 + 1, r.2.2.2 + 1)
    | (none, seen') =>
      let r := dedupeRun ls seen'
      (r.1, r.2.1, r.2.2.1 + 1, r.2.2.2)

/-- The deduplicator's output file, as the list of written objects. -/
def dedupe (ls : List Line) : List JObj :=
  (dedupeRun ls []).1

/-- The deduplicator's `total` counter at end of run. -/
def dedupeTotal (ls : List Line) : Nat :=
  (dedupeRun ls []).2.2.1

/-- The deduplicator's `kept` counter at end of run. -/
def dedupeKept (ls : List Line) : Nat :=
  (dedupeRun ls []).2.2.2

/-- The `dropped` figure the deduplicator prints: `total - kept`. -/
def dedupeDropped (ls : List Line) : Nat :=
  dedupeTotal ls - dedupeKept ls

/-! ## Specification-side formulations (deduplicator) -/

/-- The keyable records of an input file, read off independently of the
deduplication pass: for each line that is an object with a string-valued
`code`, the pair of that code and the object, in input order. -/
def records : List Line → List (String × JObj)
  | [] => []
  | .blank :: ls => records ls
  | .malformed :: ls => records ls
  | .obj d :: ls =>
    match d.get "code" with
    | some (.jstr c) => (c, d) :: records ls
    | _ => records ls

/-- Keep, of a list of keyed records, exactly the first occurrence of each
key, in order: keep the head and recurse on the tail purged of the head's
key. -/
def firstOcc : List (String × JObj) → List (String × JObj)
  | [] => []
  | (c, d) :: rest => (c, d) :: firstOcc (rest.filter (fun p => p.1 != c))
termination_by l => l.length
decreasing_by
  simp only [List.length_cons]
  exact Nat.lt_succ_of_le (List.length_filter_le _ _)

/-- The deduplicator's contract, stated from the spec's words: the output
is the sequence of input records that are the first occurrence of their
code, in original input order. -/
def specDedupe (ls : List Line) : List JObj :=
  (firstOcc (records ls)).map Prod.snd

/-- Duplicate records of an input file: keyable records that are not the
first occurrence of their code. -/
def numDuplicates (ls : List Line) : Nat :=
  (records ls).length - (firstOcc (records ls)).length

/-- A string is free of leading and trailing whitespace. -/
def noEdgeWs (s : String) : Prop :=
  (∀ a, s.data.head? = some a → a.isWhitespace = false) ∧
  (∀ a, s.data.getLast? = some a → a.isWhitespace = false)

/-! ## Specification-side formulations (extractor) -/

/-- The score field nested inside the `nutriscore_data` object, when that
object is present and is a dict. -/
def nestedScoreField (p : JObj) : Option JVal :=
  match p.get "nutriscore_data" with
  | some (.jobj fs) => JObj.get fs "score"
  | _ => none

/-- The three candidate score fields, in the spec's priority order:
`nutriscore_score`, then the `score` field inside `nutriscore_data`, then
`nutrition_score_fr_100g`. -/
def scoreFields (p : JObj) : List (Option JVal) :=
  [p.get "nutriscore_score", nestedScoreField p, p.get "nutrition_score_fr_100g"]

/-- The spec's wording of score resolution: the first candidate field
holding an integer or floating-point value, coerced to floating point. -/
def specScore (p : JObj) : Option ℚ :=
  ((scoreFields p).filterMap (fun o => o.bind pyNum?)).head?

/-- The spec's wording of name resolution: the first of the five candidate
fields whose value is a string that is non-empty after trimming, that
value trimmed. -/
def specName (p : JObj) : Option String :=
  (((nameKeys ++ ["brands"]).map (fun k => p.get k)).filterMap
    (fun o => o.bind strippedStr?)).head?

/-! ## Concrete example inputs -/

/-- The spec's summary example: records with codes A, A, B. -/
def exampleAAB : List Line :=
  [.obj [("code", .jstr "A")], .obj [("code", .jstr "A")], .obj [("code", .jstr "B")]]

/-- A well-formed product record for the extractor. -/
def exC2Line : Line :=
  .obj [("code", .jstr "42"), ("nutriscore_score", .jint 5),
        ("product_name", .jstr "Milk")]

/-- The entry the extractor emits for `exC2Line`. -/
def exC2Entry : JObj :=
  [("code", .jstr "42"), ("score", .jfloat 5), ("name", .jstr "Milk")]

/-- The spec's score example: `nutriscore_score` holding -1. -/
def exC3Product : JObj :=
  [("code", .jstr "c"), ("nutriscore_score", .jint (-1)),
   ("product_name", .jstr "Test")]

/-- The entry the extractor emits for `exC3Product`: score -1.0. -/
def exC3Entry : JObj :=
  [("code", .jstr "c"), ("score", .jfloat (-1)), ("name", .jstr "Test")]

/-- The spec's name example: empty `product_name`, `generic_name` set. -/
def exC4Product : JObj :=
  [("code", .jstr "c"), ("nutriscore_score", .jint 0),
   ("product_name", .jstr ""), ("generic_name", .jstr "Fallback")]

/-- The entry the extractor emits for `exC4Product`: name "Fallback". -/
def exC4Entry : JObj :=
  [("code", .jstr "c"), ("score", .jfloat 0), ("name", .jstr "Fallback")]

/-- A record with a valid score but no name field at all. -/
def exC7Product : JObj :=
  [("code", .jstr "x"), ("nutriscore_score", .jint 3)]

/-- A record whose code is the empty string. -/
def exC9Product : JObj :=
  [("code", .jstr "")]

/-- A record whose code and name carry surrounding whitespace. -/
def exC10Product : JObj :=
  [("code", .jstr " 42 "), ("nutriscore_score", .jint 2),
   ("product_name", .jstr " Milk ")]

/-- The entry the extractor emits for `exC10Product`: both strings
stripped. -/
def exC10Entry : JObj :=
  [("code", .jstr "42"), ("score", .jfloat 2), ("name", .jstr "Milk")]

/-! ## Lemmas -/

/-- Every record pair produced by `records` carries the code of its
object. -/
theorem records_get {ls : List Line} {c : String} {d : JObj}
    (h : (c, d) ∈ records ls) : d.get "code" = some (.jstr c) := by
  induction ls with
  | nil => cases h
  | cons l ls ih =>
    cases l with
    | blank => exact ih h
    | malformed => exact ih h
    | obj e =>
      revert h
      simp only [records]
      split
      · next c' hc =>
        intro h
        rcases List.mem_cons.mp h with h | h
        · cases h; exact hc
        · exact ih h
      · exact ih

/-- Elements of `firstOcc R` come from `R`. -/
theorem mem_of_mem_firstOcc : ∀ {R : List (String × JObj)} {x},
    x ∈ firstOcc R → x ∈ R := by
  intro R
  induction R using firstOcc.induct with
  | case1 =>
    intro x h
    rw [firstOcc] at h
    cases h
  | case2 c d rest ih =>
    intro x h
    rw [firstOcc] at h
    rcases List.mem_cons.mp h with h | h
    · exact h ▸ List.mem_cons_self _ _
    · exact List.mem_cons_of_mem _ (List.mem_of_mem_filter (ih h))

/-- The keys of `firstOcc R` are pairwise distinct. -/
theorem nodup_firstOcc_keys : ∀ (R : List (String × JObj)),
    ((firstOcc R).map Prod.fst).Nodup := by
  intro R
  induction R using firstOcc.induct with
  | case1 => rw [firstOcc]; simp
  | case2 c d rest ih =>
    rw [firstOcc]
    simp only [List.map_cons, List.nodup_cons]
    refine ⟨?_, ih⟩
    intro hc
    rcases List.mem_map.mp hc with ⟨x, hx, hxc⟩
    have hxf := mem_of_mem_firstOcc hx
    have := List.of_mem_filter hxf
    simp only [hxc] at this
    simp at this

/-- On keys already free of duplicates, `firstOcc` keeps everything. -/
theorem firstOcc_eq_self {R : List (String × JObj)}
    (h : (R.map Prod.fst).Nodup) : firstOcc R = R := by
  induction R using firstOcc.induct with
  | case1 => rw [firstOcc]
  | case2 c d rest ih =>
    rw [firstOcc]
    simp only [List.map_cons, List.nodup_cons] at h
    have hfilter : rest.filter (fun p => p.1 != c) = rest := by
      rw [List.filter_eq_self]
      intro x hx
      simp only [bne_iff_ne, ne_eq, decide_eq_true_eq]
      intro hxc
      exact h.1 (List.mem_map.mpr ⟨x, hx, hxc⟩)
    have htail := ih (by rw [hfilter]; exact h.2)
    rw [hfilter] at htail
    rw [hfilter, htail]

/-- The deduplication loop from an arbitrary seen set keeps exactly the
first occurrences of the records whose code is not yet seen. -/
theorem dedupeRun_eq_firstOcc : ∀ (ls : List Line) (seen : List String),
    (dedupeRun ls seen).1 =
      (firstOcc ((records ls).filter (fun p => !seen.contains p.1))).map Prod.snd := by
  intro ls
  induction ls with
  | nil => intro seen; rw [records]; simp [dedupeRun, firstOcc]
  | cons l ls ih =>
    intro seen
    cases l with
    | blank => simpa [dedupeRun, dedupeLine, records] using ih seen
    | malformed => simpa [dedupeRun, dedupeLine, records] using ih seen
    | obj d =>
      cases hc : d.get "code" with
      | none =>
        simp only [dedupeRun, dedupeLine, hc, records]
        exact ih seen
      | some v =>
        cases v with
        | jstr c =>
          cases hseen : seen.contains c with
          | true =>
            simp only [dedupeRun, dedupeLine, hc, hseen, if_true, records,
              List.filter_cons, Bool.not_true, Bool.false_eq_true, if_false]
            exact ih seen
          | false =>
            simp only [dedupeRun, dedupeLine, hc, hseen, Bool.false_eq_true,
              if_false, records, List.filter_cons, Bool.not_false, if_true]
            rw [firstOcc, List.map_cons]
            congr 1
            rw [ih (c :: seen), List.filter_filter]
            congr 1
            congr 1
            apply List.filter_congr
            intro x _
            rw [Bool.eq_iff_iff]
            simp [List.contains_cons, Bool.not_or, Bool.and_comm, bne_iff_ne]
        | jnull => simp only [dedupeRun, dedupeLine, hc, records]; exact ih seen
        | jbool b => simp only [dedupeRun, dedupeLine, hc, records]; exact ih seen
        | jint n => simp only [dedupeRun, dedupeLine, hc, records]; exact ih seen
        | jfloat q => simp only [dedupeRun, dedupeLine, hc, records]; exact ih seen
        | jarr es => simp only [dedupeRun, dedupeLine, hc, records]; exact ih seen
        | jobj fs => simp only [dedupeRun, dedupeLine, hc, records]; exact ih seen

/-- The deduplicator's output is exactly the first-occurrence subsequence
of the input's keyable records. -/
theorem dedupe_eq_specDedupe (ls : List Line) : dedupe ls = specDedupe ls := by
  rw [dedupe, dedupeRun_eq_firstOcc, specDedupe]
  congr 2
  rw [List.filter_eq_self]
  intro x _
  rfl

/-- The code fields of the deduplicator's output decode pairwise
differently. -/
theorem nodup_dedupe_codes (ls : List Line) :
    ((dedupe ls).map (fun d => JObj.get d "code")).Nodup := by
  rw [dedupe_eq_specDedupe, specDedupe, List.map_map]
  have hmap : (firstOcc (records ls)).map ((fun d => JObj.get d "code") ∘ Prod.snd) =
      (firstOcc (records ls)).map (fun p => some (JVal.jstr p.1)) := by
    apply List.map_congr_left
    intro p hp
    obtain ⟨c, d⟩ := p
    exact records_get (mem_of_mem_firstOcc hp)
  rw [hmap, show (fun p : String × JObj => some (JVal.jstr p.1)) =
      (fun c => some (JVal.jstr c)) ∘ Prod.fst from rfl, ← List.map_map]
  apply List.Nodup.map
  · intro a b hab
    simpa using hab
  · exact nodup_firstOcc_keys _

/-- Re-reading a list of written objects that all carry the code paired
with them recovers exactly those record pairs. -/
theorem records_map_obj : ∀ (P : List (String × JObj)),
    (∀ p ∈ P, JObj.get p.2 "code" = some (.jstr p.1)) →
    records ((P.map Prod.snd).map Line.obj) = P := by
  intro P
  induction P with
  | nil => intro _; rfl
  | cons p rest ih =>
    intro h
    obtain ⟨c, d⟩ := p
    have hc : JObj.get d "code" = some (.jstr c) := h (c, d) (List.mem_cons_self _ _)
    simp only [List.map_cons, records, hc]
    rw [ih (fun q hq => h q (List.mem_cons_of_mem _ hq))]

/-- Running the deduplicator on its own output drops nothing: the output
is a fixed point. -/
theorem dedupe_idempotent (ls : List Line) :
    dedupe ((dedupe ls).map Line.obj) = dedupe ls := by
  rw [dedupe_eq_specDedupe ls, specDedupe]
  rw [dedupe_eq_specDedupe, specDedupe]
  rw [records_map_obj (firstOcc (records ls))
    (fun p hp => records_get (mem_of_mem_firstOcc hp))]
  rw [firstOcc_eq_self (nodup_firstOcc_keys (records ls))]

/-- The deduplicator's `total` counter counts every input line. -/
theorem dedupeRun_total : ∀ (ls : List Line) (seen : List String),
    (dedupeRun ls seen).2.2.1 = ls.length := by
  intro ls
  induction ls with
  | nil => intro seen; rfl
  | cons l ls ih =>
    intro seen
    rcases h : dedupeLine seen l with ⟨o, seen'⟩
    cases o with
    | some d => simp only [dedupeRun, h, List.length_cons, ih]
    | none => simp only [dedupeRun, h, List.length_cons, ih]

/-- The deduplicator's `kept` counter never exceeds its `total` counter. -/
theorem dedupeRun_kept_le_total : ∀ (ls : List Line) (seen : List String),
    (dedupeRun ls seen).2.2.2 ≤ (dedupeRun ls seen).2.2.1 := by
  intro ls
  induction ls with
  | nil => intro seen; exact Nat.le_refl 0
  | cons l ls ih =>
    intro seen
    rcases h : dedupeLine seen l with ⟨o, seen'⟩
    cases o with
    | some d =>
      simp only [dedupeRun, h]
      exact Nat.succ_le_succ (ih seen')
    | none =>
      simp only [dedupeRun, h]
      exact Nat.le_succ_of_le (ih seen')


/-! ## Stripping lemmas -/

/-- The head of `dropWhile p` never satisfies `p`. -/
theorem head?_dropWhile_not {p : Char → Bool} : ∀ {l : List Char} {a : Char},
    (l.dropWhile p).head? = some a → p a = false := by
  intro l
  induction l with
  | nil => intro a h; cases h
  | cons x l ih =>
    intro a h
    rw [List.dropWhile_cons] at h
    by_cases hx : p x
    · rw [if_pos hx] at h
      exact ih h
    · rw [if_neg hx] at h
      cases h
      exact Bool.eq_false_iff.mpr hx

/-- A non-empty `dropWhile p` keeps the last element of the list. -/
theorem getLast?_dropWhile {p : Char → Bool} : ∀ {l : List Char},
    l.dropWhile p ≠ [] → (l.dropWhile p).getLast? = l.getLast? := by
  intro l
  induction l with
  | nil => intro h; exact absurd rfl h
  | cons x l ih =>
    intro h
    rw [List.dropWhile_cons]
    by_cases hx : p x
    · rw [List.dropWhile_cons, if_pos hx] at h
      have hl : l ≠ [] := by
        intro hnil
        rw [hnil] at h
        exact h rfl
      rw [if_pos hx, ih h]
      obtain ⟨y, l', rfl⟩ := List.exists_cons_of_ne_nil hl
      exact (List.getLast?_cons_cons).symm
    · rw [if_neg hx]

/-- Python's `strip` leaves no leading or trailing whitespace. -/
theorem noEdgeWs_pyStrip (s : String) : noEdgeWs (pyStrip s) := by
  constructor
  · intro a h
    simp only [pyStrip, pyStripL] at h
    rw [List.head?_reverse] at h
    by_cases hB : (s.data.dropWhile Char.isWhitespace).reverse.dropWhile Char.isWhitespace = []
    · rw [hB] at h
      cases h
    · rw [getLast?_dropWhile hB, List.getLast?_reverse] at h
      exact head?_dropWhile_not h
  · intro a h
    simp only [pyStrip, pyStripL] at h
    rw [List.getLast?_reverse] at h
    exact head?_dropWhile_not h

/-- What `strippedStr?` returns: a stripped, non-empty string. -/
theorem strippedStr?_some {v : JVal} {s : String}
    (h : strippedStr? v = some s) : s ≠ "" ∧ noEdgeWs s := by
  cases v with
  | jstr t =>
    simp only [strippedStr?] at h
    by_cases ht : pyStrip t = ""
    · rw [if_pos ht] at h; cases h
    · rw [if_neg ht] at h
      cases h
      exact ⟨ht, noEdgeWs_pyStrip t⟩
  | jnull => cases h
  | jbool b => cases h
  | jint n => cases h
  | jfloat q => cases h
  | jarr es => cases h
  | jobj fs => cases h

/-- What `choose_name` returns: a stripped, non-empty string. -/
theorem choose_name_some {p : JObj} {s : String}
    (h : choose_name p = some s) : s ≠ "" ∧ noEdgeWs s := by
  rw [choose_name] at h
  cases hf : nameKeys.findSome? (fun k => (p.get k).bind strippedStr?) with
  | some t =>
    rw [hf] at h
    cases h
    obtain ⟨k, _, hk⟩ := List.exists_of_findSome?_eq_some hf
    cases hv : JObj.get p k with
    | none => rw [hv] at hk; cases hk
    | some v =>
      rw [hv] at hk
      exact strippedStr?_some hk
  | none =>
    rw [hf] at h
    cases hv : JObj.get p "brands" with
    | none => rw [hv] at h; cases h
    | some v =>
      rw [hv] at h
      exact strippedStr?_some h

/-- `findSome?` is the head of `filterMap`. -/
theorem findSome?_eq_head?_filterMap {α β : Type} (f : α → Option β) :
    ∀ (l : List α), l.findSome? f = (l.filterMap f).head? := by
  intro l
  induction l with
  | nil => rfl
  | cons a l ih =>
    rw [List.findSome?_cons, List.filterMap_cons]
    cases h : f a with
    | some b => simp
    | none =>
      show l.findSome? f = (List.filterMap f l).head?
      exact ih

/-- The extractor's `choose_score` implements the spec's priority order. -/
theorem choose_score_eq_specScore (p : JObj) : choose_score p = specScore p := by
  have hnested : (match p.get "nutriscore_data" with
      | some (.jobj fs) => (JObj.get fs "score").bind pyNum?
      | _ => none) = (nestedScoreField p).bind pyNum? := by
    rw [nestedScoreField]
    cases h : p.get "nutriscore_data" with
    | none => rfl
    | some v => cases v <;> rfl
  rw [choose_score, specScore, scoreFields, hnested]
  cases h1 : (p.get "nutriscore_score").bind pyNum? with
  | some q => simp [List.filterMap_cons, h1]
  | none =>
    cases h2 : (nestedScoreField p).bind pyNum? with
    | some q => simp [List.filterMap_cons, h1, h2]
    | none =>
      cases h3 : (p.get "nutrition_score_fr_100g").bind pyNum? with
      | some q => simp [List.filterMap_cons, h1, h2, h3]
      | none => simp [List.filterMap_cons, h1, h2, h3]

/-- The extractor's `choose_name` implements the spec's priority order. -/
theorem choose_name_eq_specName (p : JObj) : choose_name p = specName p := by
  rw [choose_name, specName, List.map_append, List.filterMap_append,
    List.head?_append]
  have hmain : nameKeys.findSome? (fun k => (p.get k).bind strippedStr?) =
      ((nameKeys.map (fun k => p.get k)).filterMap (fun o => o.bind strippedStr?)).head? := by
    rw [findSome?_eq_head?_filterMap, List.filterMap_map]
    rfl
  cases hf : nameKeys.findSome? (fun k => (p.get k).bind strippedStr?) with
  | some t =>
    rw [hf] at hmain
    rw [← hmain]
    rfl
  | none =>
    rw [hf] at hmain
    rw [← hmain]
    simp only [Option.none_or]
    cases hb : (p.get "brands").bind strippedStr? with
    | some t => simp [List.filterMap, hb]
    | none => simp [List.filterMap, hb]

/-- The extractor's output is the per-line filter-map of its loop body. -/
theorem extractRun_out : ∀ (ls : List Line),
    (extractRun ls).1 = ls.filterMap extractLine := by
  intro ls
  induction ls with
  | nil => rfl
  | cons l ls ih =>
    cases h : extractLine l with
    | some e => simp [extractRun, h, List.filterMap_cons, ih]
    | none => simp [extractRun, h, List.filterMap_cons, ih]

/-- The extractor's `total` counter counts every input line. -/
theorem extractRun_total : ∀ (ls : List Line),
    (extractRun ls).2.1 = ls.length := by
  intro ls
  induction ls with
  | nil => rfl
  | cons l ls ih =>
    cases h : extractLine l with
    | some e => simp [extractRun, h, ih]
    | none => simp [extractRun, h, ih]

/-- The extractor's `written` counter counts exactly the emitted lines. -/
theorem extractRun_written : ∀ (ls : List Line),
    (extractRun ls).2.2 = (extractRun ls).1.length := by
  intro ls
  induction ls with
  | nil => rfl
  | cons l ls ih =>
    cases h : extractLine l with
    | some e => simp [extractRun, h, ih]
    | none => simp [extractRun, h, ih]

/-- Every entry the extractor's loop body emits is the exact three-field
object, with non-empty, whitespace-free code and name. -/
theorem extractLine_some {l : Line} {e : JObj} (h : extractLine l = some e) :
    ∃ code score name,
      e = [("code", JVal.jstr code), ("score", JVal.jfloat score),
           ("name", JVal.jstr name)] ∧
      code ≠ "" ∧ name ≠ "" ∧ noEdgeWs code ∧ noEdgeWs name := by
  cases l with
  | blank => cases h
  | malformed => cases h
  | obj p =>
    simp only [extractLine] at h
    split at h
    · next code heq =>
      split at h
      · cases h
      · next hstrip =>
        split at h
        · next score name hs hn =>
          cases h
          obtain ⟨hne, hws⟩ := choose_name_some hn
          exact ⟨pyStrip code, score, name, rfl, hstrip, hne,
            noEdgeWs_pyStrip code, hws⟩
        · cases h
    · cases h

/-- A record without a usable name is never emitted, whatever its other
fields hold. -/
theorem extractLine_none_of_no_name {p : JObj}
    (h : choose_name p = none) : extractLine (Line.obj p) = none := by
  simp only [extractLine]
  split
  · next code heq =>
    split
    · rfl
    · split
      · next score name hs hn =>
        rw [h] at hn
        cases hn
      · rfl
  · rfl

/-- A record without a usable score is never emitted, whatever its other
fields hold. -/
theorem extractLine_none_of_no_score {p : JObj}
    (h : choose_score p = none) : extractLine (Line.obj p) = none := by
  simp only [extractLine]
  split
  · next code heq =>
    split
    · rfl
    · split
      · next score name hs hn =>
        rw [h] at hs
        cases hs
      · rfl
  · rfl

/-- The objects of `records` come from object lines of the input. -/
theorem records_mem_line : ∀ {ls : List Line} {c : String} {d : JObj},
    (c, d) ∈ records ls → Line.obj d ∈ ls := by
  intro ls
  induction ls with
  | nil => intro c d h; cases h
  | cons l ls ih =>
    intro c d h
    cases l with
    | blank => exact List.mem_cons_of_mem _ (ih h)
    | malformed => exact List.mem_cons_of_mem _ (ih h)
    | obj e =>
      revert h
      simp only [records]
      split
      · next c' hc =>
        intro h
        rcases List.mem_cons.mp h with h | h
        · cases h
          exact List.mem_cons_self _ _
        · exact List.mem_cons_of_mem _ (ih h)
      · intro h
        exact List.mem_cons_of_mem _ (ih h)

/-- Every object the deduplicator writes is one of the input's parsed
objects, unmodified. -/
theorem mem_dedupe_obj {ls : List Line} {d : JObj}
    (h : d ∈ dedupe ls) : Line.obj d ∈ ls := by
  rw [dedupe_eq_specDedupe, specDedupe] at h
  obtain ⟨p, hp, rfl⟩ := List.mem_map.mp h
  obtain ⟨c, d⟩ := p
  exact records_mem_line (mem_of_mem_firstOcc hp)

/-! ## Claims -/

/-- C1: for every input file, no two lines of the deduplicator's output
decode to the same code value, and the output is exactly the subsequence
of input records that are the first occurrence of their code, in original
input order (`specDedupe` spells that wording out with `firstOcc` over
`records`). -/
theorem C1_dedupe_unique_and_first_occurrence_order (ls : List Line) :
    ((dedupe ls).map (fun d => JObj.get d "code")).Nodup ∧
    dedupe ls = specDedupe ls :=
  ⟨nodup_dedupe_codes ls, dedupe_eq_specDedupe ls⟩

/-- C2: every line the extractor writes is an object whose fields are
exactly code, score and name, with code and name non-empty strings and
score a number (numbers in the model are exact rationals, all finite); no
partial record is ever emitted. -/
theorem C2_extractor_output_validity (ls : List Line) (e : JObj)
    (h : e ∈ (extractRun ls).1) :
    ∃ code score name,
      e = [("code", JVal.jstr code), ("score", JVal.jfloat score),
           ("name", JVal.jstr name)] ∧ code ≠ "" ∧ name ≠ "" := by
  rw [extractRun_out] at h
  obtain ⟨l, -, hl⟩ := List.mem_filterMap.mp h
  obtain ⟨c, q, n, he, hc, hn, -, -⟩ := extractLine_some hl
  exact ⟨c, q, n, he, hc, hn⟩

/-- C2 witness: the theorem applied to the concrete one-line input
`exC2Line`, whose emitted entry is `exC2Entry`. -/
theorem C2_extractor_output_validity_witness :
    ∃ code score name,
      exC2Entry = [("code", JVal.jstr code), ("score", JVal.jfloat score),
                   ("name", JVal.jstr name)] ∧ code ≠ "" ∧ name ≠ "" :=
  C2_extractor_output_validity [exC2Line] exC2Entry (by
    rw [show (extractRun [exC2Line]).1 = [exC2Entry] from rfl]
    exact List.mem_singleton.mpr rfl)

/-- C3: the extractor's score is the first candidate field holding an
integer or floating-point value, in the order `nutriscore_score`, the
`score` inside `nutriscore_data`, then `nutrition_score_fr_100g`, coerced
to floating point; a record with none of them is skipped; and the record
with `nutriscore_score` -1 and `product_name` "Test" is emitted with
score -1.0 and name "Test". -/
theorem C3_score_priority_resolution :
    (∀ p, choose_score p = specScore p) ∧
    (∀ p, choose_score p = none → extractLine (Line.obj p) = none) ∧
    extractLine (Line.obj exC3Product) = some exC3Entry :=
  ⟨choose_score_eq_specScore,
   fun _ h => extractLine_none_of_no_score h,
   rfl⟩

/-- C3 witness: the skip clause applied to a concrete record carrying no
score field. -/
theorem C3_score_priority_resolution_witness :
    extractLine (Line.obj [("code", JVal.jstr "c")]) = none :=
  C3_score_priority_resolution.2.1 [("code", JVal.jstr "c")] rfl

/-- C4: the extractor's display name is the first field whose value is a
string non-empty after trimming, in the order `product_name`,
`product_name_en`, `generic_name`, `generic_name_en`, `brands`; a record
with none of them usable is skipped; and the record with empty
`product_name` and `generic_name` "Fallback" is emitted with name
"Fallback". -/
theorem C4_name_priority_resolution :
    (∀ p, choose_name p = specName p) ∧
    (∀ p, choose_name p = none → extractLine (Line.obj p) = none) ∧
    choose_name exC4Product = some "Fallback" ∧
    extractLine (Line.obj exC4Product) = some exC4Entry :=
  ⟨choose_name_eq_specName,
   fun _ h => extractLine_none_of_no_name h,
   rfl, rfl⟩

/-- C4 witness: the skip clause applied to a concrete record carrying no
name field. -/
theorem C4_name_priority_resolution_witness :
    extractLine (Line.obj [("nutriscore_score", JVal.jint 1)]) = none :=
  C4_name_priority_resolution.2.1 [("nutriscore_score", JVal.jint 1)] rfl

/-- C5: running the deduplicator a second time on its own output yields
an output identical to that input; no line is dropped or altered. -/
theorem C5_dedupe_idempotence (ls : List Line) :
    dedupe ((dedupe ls).map Line.obj) = dedupe ls :=
  dedupe_idempotent ls

/-- C6 counterexample: on the one-line input holding only a malformed
line, the printed dropped figure is `total - kept = 1` although the input
has no duplicate records at all, so the dropped figure does not count
duplicate records — it counts every non-kept line. -/
theorem C6_summary_counterexample :
    dedupeDropped [Line.malformed] = 1 ∧ numDuplicates [Line.malformed] = 0 := by
  constructor
  · rfl
  · rw [numDuplicates, show records [Line.malformed] = [] from rfl, firstOcc]
    rfl

/-- C6 (amended): the summary reports total lines read, unique codes kept
and a dropped figure with `total = kept + dropped`; `total` counts every
line, and `dropped = total - kept` counts every line that was not kept
(malformed, blank and codeless lines as well as duplicates), not only
duplicate records; on the input with codes A, A, B the summary reports
3 read, 2 kept, 1 dropped. -/
theorem C6_summary_accounting (ls : List Line) :
    dedupeTotal ls = dedupeKept ls + dedupeDropped ls ∧
    dedupeTotal ls = ls.length ∧
    dedupeTotal exampleAAB = 3 ∧ dedupeKept exampleAAB = 2 ∧
    dedupeDropped exampleAAB = 1 := by
  refine ⟨?_, dedupeRun_total ls [], rfl, rfl, rfl⟩
  have h := dedupeRun_kept_le_total ls []
  rw [dedupeTotal, dedupeKept, dedupeDropped, dedupeTotal, dedupeKept]
  omega

/-- C7: a record that yields a valid numeric score but no usable name is
dropped: it produces no output line and the written count does not
increment. -/
theorem C7_drop_on_missing_name (p : JObj) (ls : List Line)
    (_hscore : ∃ q, choose_score p = some q) (hname : choose_name p = none) :
    extractLine (Line.obj p) = none ∧
    (extractRun (Line.obj p :: ls)).2.2 = (extractRun ls).2.2 ∧
    (extractRun (Line.obj p :: ls)).1 = (extractRun ls).1 := by
  have h := extractLine_none_of_no_name hname
  refine ⟨h, ?_, ?_⟩ <;> simp [extractRun, h]

/-- C7 witness: the theorem applied to the concrete record with score 3
and no name field. -/
theorem C7_drop_on_missing_name_witness :
    extractLine (Line.obj exC7Product) = none ∧
    (extractRun [Line.obj exC7Product]).2.2 = (extractRun []).2.2 ∧
    (extractRun [Line.obj exC7Product]).1 = (extractRun []).1 :=
  C7_drop_on_missing_name exC7Product [] ⟨3, rfl⟩ rfl

/-- C8: in both scripts a line that is not valid JSON is skipped: it
contributes nothing to the output, while the total counter still counts
it, and the processing of the remaining lines is unaffected. -/
theorem C8_malformed_line_skipped (ls : List Line) (seen : List String) :
    dedupeLine seen Line.malformed = (none, seen) ∧
    extractLine Line.malformed = none ∧
    (dedupeRun (Line.malformed :: ls) seen).1 = (dedupeRun ls seen).1 ∧
    (dedupeRun (Line.malformed :: ls) seen).2.2.1 = (dedupeRun ls seen).2.2.1 + 1 ∧
    (extractRun (Line.malformed :: ls)).1 = (extractRun ls).1 ∧
    (extractRun (Line.malformed :: ls)).2.1 = (extractRun ls).2.1 + 1 :=
  ⟨rfl, rfl, rfl, rfl, rfl, rfl⟩

/-- C9: a record whose code field is the empty string passes the
deduplicator's type check and is kept on first occurrence, while the
extractor drops the same record because its code strips to empty. -/
theorem C9_empty_code_is_valid_dedupe_key (d : JObj) (seen : List String)
    (hcode : JObj.get d "code" = some (JVal.jstr ""))
    (hseen : seen.contains "" = false) :
    dedupeLine seen (Line.obj d) = (some d, "" :: seen) ∧
    dedupe [Line.obj d] = [d] ∧
    extractLine (Line.obj d) = none := by
  refine ⟨?_, ?_, ?_⟩
  · have hmem : "" ∉ seen := by simpa using hseen
    simp [dedupeLine, hcode, hmem]
  · simp [dedupe, dedupeRun, dedupeLine, hcode]
  · simp only [extractLine, hcode]
    rw [if_pos (show pyStrip "" = "" from rfl)]

/-- C9 witness: the theorem applied to the concrete record whose code is
the empty string, with an empty seen set. -/
theorem C9_empty_code_is_valid_dedupe_key_witness :
    dedupeLine [] (Line.obj exC9Product) = (some exC9Product, [""]) ∧
    dedupe [Line.obj exC9Product] = [exC9Product] ∧
    extractLine (Line.obj exC9Product) = none :=
  C9_empty_code_is_valid_dedupe_key exC9Product [] rfl rfl

/-- C10: every entry the extractor emits carries a code and a name free
of leading and trailing whitespace, while the deduplicator writes the
original parsed object — hence the original code — unmodified. -/
theorem C10_emitted_values_trimmed (ls : List Line) (e d : JObj)
    (he : e ∈ (extractRun ls).1) (hd : d ∈ dedupe ls) :
    (∃ code score name,
      e = [("code", JVal.jstr code), ("score", JVal.jfloat score),
           ("name", JVal.jstr name)] ∧ noEdgeWs code ∧ noEdgeWs name) ∧
    Line.obj d ∈ ls := by
  refine ⟨?_, mem_dedupe_obj hd⟩
  rw [extractRun_out] at he
  obtain ⟨l, -, hl⟩ := List.mem_filterMap.mp he
  obtain ⟨c, q, n, hE, -, -, hwc, hwn⟩ := extractLine_some hl
  exact ⟨c, q, n, hE, hwc, hwn⟩

/-- C10 witness: the theorem applied to the one-line input whose record
carries whitespace around its code and name. -/
theorem C10_emitted_values_trimmed_witness :
    (∃ code score name,
      exC10Entry = [("code", JVal.jstr code), ("score", JVal.jfloat score),
                    ("name", JVal.jstr name)] ∧ noEdgeWs code ∧ noEdgeWs name) ∧
    Line.obj exC10Product ∈ [Line.obj exC10Product] :=
  C10_emitted_values_trimmed [Line.obj exC10Product] exC10Entry exC10Product
    (by
      rw [show (extractRun [Line.obj exC10Product]).1 = [exC10Entry] from rfl]
      exact List.mem_singleton.mpr rfl)
    (by
      rw [show dedupe [Line.obj exC10Product] = [exC10Product] from rfl]
      exact List.mem_singleton.mpr rfl)
